import Mathlib

/-!
Radiation-pattern scanner firmware.

A shallow embedding of `src/arduino/src/main.cpp`: the board set-up (`setup`), the
command state machine (`loop`), the two routines the source leaves empty
(`set_motor_to_origin`, `perform_sampling`) and the line encoder (`serial_write`).

* The sketch talks to the outside world only through the Arduino core. Every such call is
  recorded as an `Event` in `Board.trace`; what the core would hand back (bytes waiting on the
  serial port, analog levels) is part of `Board`.
* `Stream::parseInt` is library code outside the repository, so `loop` takes it as a parameter:
  a function from the pending input to the decoded `long` and the input it leaves behind.
* `serial_write` is modelled on its character buffer: a cell is `none` until something is
  stored in it, every store is logged, and `Serial.println` reads the cells of the array up to
  the first NUL. Reading a cell outside the array, or one never stored, is undefined in C++ and
  is `none` here.
* `size_t` arithmetic is taken over `Nat`: `samples * 6` cannot wrap for an array of `samples`
  16-bit values that fits into the address space.
-/

namespace Scanner

/-! ## Pins, constants, events -/

/-- Arduino pin numbers as the sketch writes them: `7` is `D 7`, `A15` is `A 15`. -/
inductive Pin where
  | D (n : Nat)
  | A (n : Nat)
deriving DecidableEq

/-- The routines of the sketch whose calls are recorded in the trace. -/
inductive Routine where
  | set_motor_to_origin
  | perform_sampling
  | serial_write
deriving DecidableEq

/-- One call into the Arduino core, or the entry into one of the sketch's routines. -/
inductive Event where
  | pinMode (pin : Pin) (output : Bool)
  | digitalWrite (pin : Pin) (high : Bool)
  | setTimeout (ms : Nat)
  | begin (baud : Nat)
  | println (text : List Char)
  | call (routine : Routine)
deriving DecidableEq

def M1_DIR_PIN : Pin := Pin.D 7

def M1_STEP_PIN : Pin := Pin.D 6

def M1_EN_PIN : Pin := Pin.D 8

def HALL_PIN : Pin := Pin.A 0

def RF_PIN : Pin := Pin.A 15

def revolution_steps : Int := 1600

def samples : Nat := 10

/-- Width of `int` on the target. Pin `A15` exists on the AVR Mega boards, where `int` has
16 bits and `long` (the result type of `Stream::parseInt`) has 32. -/
def INT_BITS : Nat := 16

/-- The conversion `long → int` done by the assignment `mode = Serial.parseInt()`:
reduction modulo `2 ^ INT_BITS` into the signed range. -/
def long_to_int (x : Int) : Int := Int.bmod x (2 ^ INT_BITS)

/-- The state the sketch runs on.
* `mode`: the `static int mode` of `loop`.
* `rx`: the bytes waiting in the serial receive buffer, oldest first.
* `analogIn t pin`: the level an `analogRead pin` would return at its `t`-th call
  (Hall sensor on `HALL_PIN`, receiver on `RF_PIN`).
* `trace`: every call made so far, oldest first. -/
structure Board where
  mode : Int
  rx : List Char
  analogIn : Nat → Pin → Nat
  trace : List Event

/-- Record one more call. -/
def Board.emit (b : Board) (e : Event) : Board :=
  { b with trace := b.trace ++ [e] }

/-- The board at power-up: `mode = 0`, nothing called yet. -/
def Board.powerUp (rx : List Char) (analogIn : Nat → Pin → Nat) : Board :=
  { mode := 0, rx := rx, analogIn := analogIn, trace := [] }

/-- The lines transmitted so far (`Serial.println` calls), oldest first. -/
def linesOf : List Event → List (List Char)
  | [] => []
  | Event.println t :: es => t :: linesOf es
  | _ :: es => linesOf es

/-- The routines entered so far, oldest first. -/
def callsOf : List Event → List Routine
  | [] => []
  | Event.call r :: es => r :: callsOf es
  | _ :: es => callsOf es

/-- The writes to the motor pins (direction, step, enable) so far: any motion shows up here. -/
def motionOf : List Event → List Event
  | [] => []
  | Event.digitalWrite p h :: es => Event.digitalWrite p h :: motionOf es
  | _ :: es => motionOf es

/-! ## The character buffer of `serial_write` -/

/-- The string terminator `'\0'`. -/
def NUL : Char := Char.ofNat 0

/-- A `char` array of `size` cells. `cell i = none`: nothing was stored at `i` yet.
`stored` logs every store (index and character), oldest first. -/
structure Buffer where
  size : Nat
  cell : Nat → Option Char
  stored : List (Nat × Char)

/-- The declaration `char buffer[size];`: no cell initialised. -/
def Buffer.alloc (size : Nat) : Buffer :=
  { size := size, cell := fun _ => none, stored := [] }

/-- The assignment `buffer[i] = c`. -/
def Buffer.store (b : Buffer) (i : Nat) (c : Char) : Buffer :=
  { b with cell := fun j => if j = i then some c else b.cell j, stored := b.stored ++ [(i, c)] }

/-- Store the characters `cs` at `i`, `i + 1`, ... -/
def Buffer.storeAll (b : Buffer) (i : Nat) : List Char → Buffer
  | [] => b
  | c :: cs => (b.store i c).storeAll (i + 1) cs

/-- The call `sprintf(&buffer[pos], "%u", v)`: the decimal digits of `v` followed by a NUL
are stored from `pos` on; the result is the number of digits. -/
def sprintf_u (b : Buffer) (pos : Nat) (v : Nat) : Buffer × Nat :=
  ((b.storeAll pos (Nat.toDigits 10 v ++ [NUL])), (Nat.toDigits 10 v).length)

/-- Read the C string that starts at cell `i`, looking at no more than `fuel` cells. -/
def readCStr (cell : Nat → Option Char) : Nat → Nat → Option (List Char)
  | 0, _ => none
  | fuel + 1, i =>
    match cell i with
    | none => none
    | some c => if c = NUL then some [] else (readCStr cell fuel (i + 1)).map (fun s => c :: s)

/-- What `Serial.println(buffer)` reads: the characters before the first NUL. `none` when the
read meets a cell never stored or leaves the array. -/
def Buffer.c_str (b : Buffer) : Option (List Char) :=
  readCStr b.cell b.size 0

/-- The locals of `serial_write`. -/
structure Frame where
  buffer : Buffer
  index : Nat

/-- The body of the `for` loop of `serial_write` for the value `v = sensor_values[i]`. -/
def serial_write_body (f : Frame) (v : Nat) : Frame :=
  { buffer := ((sprintf_u f.buffer f.index v).1).store (f.index + (sprintf_u f.buffer f.index v).2) ','
    index := f.index + (sprintf_u f.buffer f.index v).2 + 1 }

/-- The loop `for (i = ...; i < samples; i++)` with `todo` iterations left, the next at `i`.
Reading `sensor_values[i]` past the end of the array is `none`. -/
def serial_write_for (sensor_values : List Nat) : Nat → Nat → Frame → Option Frame
  | 0, _, f => some f
  | todo + 1, i, f =>
    match sensor_values[i]? with
    | none => none
    | some v => serial_write_for sensor_values todo (i + 1) (serial_write_body f v)

/-- The statement `if (index) buffer[--index] = 0;`. -/
def serial_write_trim (f : Frame) : Frame :=
  if f.index = 0 then f
  else { buffer := f.buffer.store (f.index - 1) NUL, index := f.index - 1 }

/-- The locals of `serial_write` when it reaches `Serial.println(buffer)`. -/
def serial_write_frame (sensor_values : List Nat) (samples : Nat) : Option Frame :=
  (serial_write_for sensor_values samples 0
    { buffer := Buffer.alloc (samples * 6), index := 0 }).map serial_write_trim

/-- The text `serial_write` hands to `Serial.println`. -/
def serial_write_line (sensor_values : List Nat) (samples : Nat) : Option (List Char) :=
  (serial_write_frame sensor_values samples).bind (fun f => f.buffer.c_str)

/-! ## The sketch -/

/-- The routine `set_motor_to_origin`: its body is empty in the source. -/
def set_motor_to_origin (b : Board) : Board :=
  b.emit (Event.call Routine.set_motor_to_origin)

/-- The routine `perform_sampling`: its body is empty in the source, so the array it is given
comes back as it went in. -/
def perform_sampling (sensor_values : List Nat) (_samples : Nat) (b : Board) :
    List Nat × Board :=
  (sensor_values, b.emit (Event.call Routine.perform_sampling))

/-- The routine `serial_write`: fills the buffer and prints it. -/
def serial_write (sensor_values : List Nat) (samples : Nat) (b : Board) : Option Board :=
  (serial_write_line sensor_values samples).map
    (fun line => (b.emit (Event.call Routine.serial_write)).emit (Event.println line))

/-- The notice printed by the `default` branch of `loop`. -/
def unknownNotice : List Char := "Unknown command. Setting back to listen mode".toList

/-- The line printed by `setup`. -/
def readyNotice : List Char := "Serial port initialized successfully!".toList

/-- The function `setup`, once its wait `while (!Serial)` has ended (`setup_polling` spells
the wait out). -/
def setup (b : Board) : Board :=
  set_motor_to_origin
    (((((((((b.emit (Event.pinMode M1_DIR_PIN true)).emit (Event.pinMode M1_STEP_PIN true)).emit
      (Event.pinMode M1_EN_PIN true)).emit (Event.pinMode HALL_PIN false)).emit
      (Event.pinMode RF_PIN false)).emit (Event.digitalWrite M1_EN_PIN false)).emit
      (Event.digitalWrite M1_DIR_PIN false)).emit (Event.setTimeout 1000)).emit
      (Event.begin 115200) |>.emit (Event.println readyNotice))

/-- The wait `while (!Serial) {}` of `setup`: poll the port until it reports ready.
`serialUp t` is what the `t`-th poll returns; the result is the number of polls made, and
`none` when the port did not come up within `fuel` polls. -/
def waitSerial (serialUp : Nat → Bool) : Nat → Nat → Option Nat
  | 0, _ => none
  | fuel + 1, t => if serialUp t = true then some (t + 1) else waitSerial serialUp fuel (t + 1)

/-- The function `setup` with its wait spelled out: it returns, with the result `setup`,
once the port has come up. -/
def setup_polling (serialUp : Nat → Bool) (fuel : Nat) (b : Board) : Option Board :=
  (waitSerial serialUp fuel 0).map (fun _ => setup b)

/-- One call of `loop`. `none`: the call runs into undefined behaviour. -/
def loop (parseInt : List Char → Int × List Char) (b : Board) : Option Board :=
  if b.mode = 0 then
    if b.rx.length > 0 then
      some { b with mode := long_to_int (parseInt b.rx).1, rx := (parseInt b.rx).2 }
    else some b
  else if b.mode = 1 then
    match serial_write (perform_sampling (List.replicate samples 0) samples b).1 samples
        (perform_sampling (List.replicate samples 0) samples b).2 with
    | none => none
    | some b1 => some { b1 with mode := 0 }
  else
    some { b.emit (Event.println unknownNotice) with mode := 0 }

/-- Run `loop` `n` times. -/
def runLoop (parseInt : List Char → Int × List Char) : Nat → Board → Option Board
  | 0, b => some b
  | n + 1, b => (loop parseInt b).bind (runLoop parseInt n)

/-- The three states of the command state machine. -/
inductive State where
  | LISTEN
  | ACQUIRE
  | ERROR
deriving DecidableEq

/-- The state a value of `mode` selects in the `switch` of `loop`: `case 0`, `case 1`,
`default`. -/
def stateOf (mode : Int) : State :=
  if mode = 0 then State.LISTEN else if mode = 1 then State.ACQUIRE else State.ERROR

/-! ## A reference model of `Stream::parseInt`

Used only to instantiate the parameter of `loop` on concrete inputs. It follows the Arduino
core: skip everything up to the first digit or minus sign, read the digits, leave the
character that ended the number in the buffer; no digit before the input runs out gives `0`. -/

/-- Drop the characters before the first digit or minus sign. -/
def skipToNumber : List Char → List Char
  | [] => []
  | c :: cs => if c = '-' ∨ c.isDigit = true then c :: cs else skipToNumber cs

/-- Accumulate the leading digits onto `acc`; return the value and the rest. -/
def readDigits (acc : Nat) : List Char → Nat × List Char
  | [] => (acc, [])
  | c :: cs => if c.isDigit = true then readDigits (acc * 10 + (c.toNat - 48)) cs else (acc, c :: cs)

/-- The reference `parseInt`. -/
def Stream_parseInt (rx : List Char) : Int × List Char :=
  match skipToNumber rx with
  | [] => (0, [])
  | c :: cs =>
    if c = '-' then (-((readDigits 0 cs).1 : Int), (readDigits 0 cs).2)
    else (((readDigits 0 (c :: cs)).1 : Int), (readDigits 0 (c :: cs)).2)

/-! ## The wire format, as the specification words it -/

/-- The line grammar `^\d{1,5}(,\d{1,5})*$` as an automaton: `k` is the number of digits
read so far in the current field. -/
def matchesFrom : Nat → List Char → Bool
  | k, [] => decide (1 ≤ k)
  | k, c :: cs =>
    if c.isDigit = true then (if k < 5 then matchesFrom (k + 1) cs else false)
    else if c = ',' then (if 1 ≤ k then matchesFrom 0 cs else false)
    else false

/-- The line matches `^\d{1,5}(,\d{1,5})*$`. -/
def matchesLine (line : List Char) : Bool := matchesFrom 0 line

/-- The value a string of decimal digits denotes. -/
def decimalValue (s : List Char) : Nat :=
  s.foldl (fun acc c => acc * 10 + (c.toNat - 48)) 0

/-- A canonical decimal numeral for `v`: digits only, at least one, no leading zero unless
it is the numeral `0`, no other character (so no sign and no decimal point), denoting `v`. -/
def IsCanonicalDecimal (v : Nat) (s : List Char) : Prop :=
  s ≠ [] ∧ (∀ c ∈ s, c.isDigit = true) ∧ (s.head? = some '0' → s = ['0']) ∧ decimalValue s = v

/-- The line `v0,v1,...`: the fields joined by single commas. -/
def joinFields (fields : List (List Char)) : List Char :=
  List.intercalate [','] fields

/-- What a host does with a line: split it at the commas and read every field as a decimal
number. -/
def decodeLine (line : List Char) : List Nat :=
  (line.splitOn ',').map decimalValue

/-! ## Bookkeeping for the proofs -/

/-- The characters the loop of `serial_write` has laid down after the values `vs`: the digits
of each value, each followed by a comma. -/
def laidDown : List Nat → List Char
  | [] => []
  | v :: vs => Nat.toDigits 10 v ++ ',' :: laidDown vs

/-- The frame holds the text `t`: `index` is its length and the cells below `index` are its
characters. -/
def Holds (f : Frame) (t : List Char) : Prop :=
  f.index = t.length ∧ ∀ j, j < t.length → f.buffer.cell j = t[j]?

/-- Every store logged so far went to a cell below the running index. -/
def StoresBelow (f : Frame) : Prop :=
  ∀ p ∈ f.buffer.stored, p.1 < f.index

/-! ## Decimal digits -/

theorem digitChar_isDigit (d : Nat) (h : d < 10) : (Nat.digitChar d).isDigit = true := by
  interval_cases d <;> decide

theorem digitChar_value (d : Nat) (h : d < 10) : (Nat.digitChar d).toNat - 48 = d := by
  interval_cases d <;> decide

theorem digitChar_ne_zero (d : Nat) (h : d < 10) (h0 : d ≠ 0) : Nat.digitChar d ≠ '0' := by
  interval_cases d <;> first | omega | decide

theorem toDigitsCore_acc (fuel : Nat) : ∀ (n : Nat) (ds : List Char),
    Nat.toDigitsCore 10 fuel n ds = Nat.toDigitsCore 10 fuel n [] ++ ds := by
  induction fuel with
  | zero => intro n ds; simp [Nat.toDigitsCore]
  | succ fuel ih =>
    intro n ds
    simp only [Nat.toDigitsCore]
    by_cases h : n / 10 = 0
    · simp [h]
    · simp only [h, if_false]
      rw [ih (n / 10) (Nat.digitChar (n % 10) :: ds), ih (n / 10) [Nat.digitChar (n % 10)]]
      simp

theorem toDigitsCore_fuel (n : Nat) : ∀ (a b : Nat) (ds : List Char), n < a → n < b →
    Nat.toDigitsCore 10 a n ds = Nat.toDigitsCore 10 b n ds := by
  induction n using Nat.strong_induction_on with
  | _ n ih =>
    intro a b ds ha hb
    obtain ⟨a, rfl⟩ : ∃ k, a = k + 1 := ⟨a - 1, by omega⟩
    obtain ⟨b, rfl⟩ : ∃ k, b = k + 1 := ⟨b - 1, by omega⟩
    simp only [Nat.toDigitsCore]
    by_cases h : n / 10 = 0
    · simp [h]
    · simp only [h, if_false]
      exact ih (n / 10) (by omega) a b _ (by omega) (by omega)

theorem toDigits_lt_ten (n : Nat) (h : n < 10) : Nat.toDigits 10 n = [Nat.digitChar n] := by
  have h0 : n / 10 = 0 := by omega
  have h1 : n % 10 = n := by omega
  simp [Nat.toDigits, Nat.toDigitsCore, h0, h1]

theorem toDigits_ten_le (n : Nat) (h : 10 ≤ n) :
    Nat.toDigits 10 n = Nat.toDigits 10 (n / 10) ++ [Nat.digitChar (n % 10)] := by
  have h0 : ¬ n / 10 = 0 := by omega
  have e : Nat.toDigitsCore 10 (n + 1) n [] =
      Nat.toDigitsCore 10 n (n / 10) [Nat.digitChar (n % 10)] := by
    simp only [Nat.toDigitsCore, h0, if_false]
  show Nat.toDigitsCore 10 (n + 1) n [] =
    Nat.toDigitsCore 10 (n / 10 + 1) (n / 10) [] ++ [Nat.digitChar (n % 10)]
  rw [e, toDigitsCore_acc, toDigitsCore_fuel (n / 10) n (n / 10 + 1) [] (by omega) (by omega)]

theorem toDigits_ne_nil (n : Nat) : Nat.toDigits 10 n ≠ [] := by
  by_cases h : n < 10
  · simp [toDigits_lt_ten n h]
  · simp [toDigits_ten_le n (by omega)]

theorem toDigits_isDigit (n : Nat) : ∀ c ∈ Nat.toDigits 10 n, c.isDigit = true := by
  induction n using Nat.strong_induction_on with
  | _ n ih =>
    intro c hc
    by_cases h : n < 10
    · rw [toDigits_lt_ten n h] at hc
      simp only [List.mem_singleton] at hc
      subst hc
      exact digitChar_isDigit n h
    · rw [toDigits_ten_le n (by omega), List.mem_append] at hc
      rcases hc with hc | hc
      · exact ih (n / 10) (by omega) c hc
      · simp only [List.mem_singleton] at hc
        subst hc
        exact digitChar_isDigit _ (by omega)

theorem decimalValue_snoc (s : List Char) (c : Char) :
    decimalValue (s ++ [c]) = decimalValue s * 10 + (c.toNat - 48) := by
  simp [decimalValue, List.foldl_append]

theorem decimalValue_toDigits (n : Nat) : decimalValue (Nat.toDigits 10 n) = n := by
  induction n using Nat.strong_induction_on with
  | _ n ih =>
    by_cases h : n < 10
    · rw [toDigits_lt_ten n h]
      simp [decimalValue, digitChar_value n h]
    · rw [toDigits_ten_le n (by omega), decimalValue_snoc, ih (n / 10) (by omega),
        digitChar_value _ (by omega)]
      omega

theorem toDigits_head_ne_zero (n : Nat) (hn : n ≠ 0) :
    (Nat.toDigits 10 n).head? ≠ some '0' := by
  induction n using Nat.strong_induction_on with
  | _ n ih =>
    by_cases h : n < 10
    · rw [toDigits_lt_ten n h]
      simp only [List.head?_cons, ne_eq, Option.some.injEq]
      exact digitChar_ne_zero n h hn
    · rw [toDigits_ten_le n (by omega)]
      have hne := toDigits_ne_nil (n / 10)
      have := ih (n / 10) (by omega) (by omega)
      cases hd : Nat.toDigits 10 (n / 10) with
      | nil => exact absurd hd hne
      | cons a l => rw [hd] at this; simpa using this

theorem toDigits_length_le (n : Nat) (h : n ≤ 65535) : (Nat.toDigits 10 n).length ≤ 5 :=
  Nat.toDigitsCore_length 10 (by decide) (n + 1) n 5 (by omega) (by decide)

theorem toDigits_length_pos (n : Nat) : 1 ≤ (Nat.toDigits 10 n).length :=
  List.length_pos.mpr (toDigits_ne_nil n)

theorem toDigits_canonical (n : Nat) : IsCanonicalDecimal n (Nat.toDigits 10 n) := by
  refine ⟨toDigits_ne_nil n, toDigits_isDigit n, ?_, decimalValue_toDigits n⟩
  intro hz
  by_cases hn : n = 0
  · subst hn; rfl
  · exact absurd hz (toDigits_head_ne_zero n hn)

theorem isDigit_ne_comma (c : Char) (h : c.isDigit = true) : c ≠ ',' := by
  intro hc; subst hc; exact absurd h (by decide)

theorem isDigit_ne_NUL (c : Char) (h : c.isDigit = true) : c ≠ NUL := by
  intro hc; subst hc; exact absurd h (by decide)

theorem comma_ne_NUL : (',' : Char) ≠ NUL := by decide

/-! ## The buffer -/

theorem storeAll_size (cs : List Char) : ∀ (b : Buffer) (i : Nat),
    (b.storeAll i cs).size = b.size := by
  induction cs with
  | nil => intro b i; rfl
  | cons c cs ih => intro b i; rw [Buffer.storeAll, ih]; rfl

theorem storeAll_cell (cs : List Char) : ∀ (b : Buffer) (i j : Nat),
    (b.storeAll i cs).cell j = if i ≤ j ∧ j < i + cs.length then cs[j - i]? else b.cell j := by
  induction cs with
  | nil =>
    intro b i j
    have h0 : ¬ (i ≤ j ∧ j < i + ([] : List Char).length) := by
      simp only [List.length_nil]; omega
    rw [Buffer.storeAll, if_neg h0]
  | cons c cs ih =>
    intro b i j
    rw [Buffer.storeAll, ih]
    by_cases h1 : i + 1 ≤ j ∧ j < i + 1 + cs.length
    · have h2 : i ≤ j ∧ j < i + (c :: cs).length := by simp only [List.length_cons]; omega
      have h3 : j - i = (j - (i + 1)) + 1 := by omega
      rw [if_pos h1, if_pos h2, h3, List.getElem?_cons_succ]
    · rw [if_neg h1]
      by_cases h4 : j = i
      · subst h4
        have h2 : j ≤ j ∧ j < j + (c :: cs).length := by simp only [List.length_cons]; omega
        rw [if_pos h2]
        simp [Buffer.store]
      · have h2 : ¬ (i ≤ j ∧ j < i + (c :: cs).length) := by
          simp only [List.length_cons]; omega
        rw [if_neg h2]
        simp [Buffer.store, h4]

theorem storeAll_stored (cs : List Char) : ∀ (b : Buffer) (i : Nat) (p : Nat × Char),
    p ∈ (b.storeAll i cs).stored → p ∈ b.stored ∨ (i ≤ p.1 ∧ p.1 < i + cs.length) := by
  induction cs with
  | nil => intro b i p hp; exact Or.inl hp
  | cons c cs ih =>
    intro b i p hp
    rw [Buffer.storeAll] at hp
    rcases ih _ _ p hp with h | h
    · simp only [Buffer.store, List.mem_append, List.mem_singleton] at h
      rcases h with h | h
      · exact Or.inl h
      · subst h
        right
        simp only [List.length_cons]
        omega
    · right
      simp only [List.length_cons]
      omega

theorem body_index (f : Frame) (v : Nat) :
    (serial_write_body f v).index = f.index + (Nat.toDigits 10 v).length + 1 := rfl

theorem body_size (f : Frame) (v : Nat) :
    (serial_write_body f v).buffer.size = f.buffer.size := by
  simp [serial_write_body, sprintf_u, Buffer.store, storeAll_size]

theorem body_holds (f : Frame) (t : List Char) (v : Nat) (h : Holds f t) :
    Holds (serial_write_body f v) (t ++ (Nat.toDigits 10 v ++ [','])) := by
  obtain ⟨hi, hc⟩ := h
  refine ⟨by simp [body_index, hi]; omega, ?_⟩
  intro j hj
  simp only [List.length_append, List.length_singleton] at hj
  simp only [serial_write_body, sprintf_u, Buffer.store, storeAll_cell, hi]
  by_cases h1 : j = t.length + (Nat.toDigits 10 v).length
  · have e2 : (t ++ (Nat.toDigits 10 v ++ [',']))[j]? =
        (Nat.toDigits 10 v ++ [','])[j - t.length]? :=
      List.getElem?_append_right (by omega)
    have e3 : (Nat.toDigits 10 v ++ [','])[j - t.length]? =
        [','][j - t.length - (Nat.toDigits 10 v).length]? :=
      List.getElem?_append_right (by omega)
    have e4 : j - t.length - (Nat.toDigits 10 v).length = 0 := by omega
    rw [if_pos h1, e2, e3, e4]
    rfl
  · rw [if_neg h1]
    by_cases h2 : j < t.length
    · have h3 : ¬ (t.length ≤ j ∧ j < t.length + (Nat.toDigits 10 v ++ [NUL]).length) := by
        omega
      rw [if_neg h3, hc j h2, List.getElem?_append_left h2]
    · have h3 : t.length ≤ j ∧ j < t.length + (Nat.toDigits 10 v ++ [NUL]).length := by
        simp only [List.length_append, List.length_singleton]; omega
      have e1 : (Nat.toDigits 10 v ++ [NUL])[j - t.length]? =
          (Nat.toDigits 10 v)[j - t.length]? :=
        List.getElem?_append_left (by omega)
      have e2 : (t ++ (Nat.toDigits 10 v ++ [',']))[j]? =
          (Nat.toDigits 10 v ++ [','])[j - t.length]? :=
        List.getElem?_append_right (by omega)
      have e3 : (Nat.toDigits 10 v ++ [','])[j - t.length]? =
          (Nat.toDigits 10 v)[j - t.length]? :=
        List.getElem?_append_left (by omega)
      rw [if_pos h3, e1, e2, e3]

theorem body_storesBelow (f : Frame) (v : Nat) (h : StoresBelow f) :
    StoresBelow (serial_write_body f v) := by
  intro p hp
  rw [body_index]
  simp only [serial_write_body, sprintf_u, Buffer.store, List.mem_append,
    List.mem_singleton] at hp
  rcases hp with hp | hp
  · rcases storeAll_stored _ _ _ p hp with h1 | h1
    · have := h p h1
      omega
    · simp only [List.length_append, List.length_singleton] at h1
      omega
  · subst hp
    simp

theorem foldl_holds (vs : List Nat) : ∀ (f : Frame) (t : List Char), Holds f t →
    Holds (vs.foldl serial_write_body f) (t ++ laidDown vs) := by
  induction vs with
  | nil => intro f t h; simpa [laidDown] using h
  | cons v vs ih =>
    intro f t h
    have := ih _ _ (body_holds f t v h)
    simpa [laidDown, List.append_assoc] using this

theorem foldl_storesBelow (vs : List Nat) : ∀ (f : Frame), StoresBelow f →
    StoresBelow (vs.foldl serial_write_body f) := by
  induction vs with
  | nil => intro f h; exact h
  | cons v vs ih => intro f h; exact ih _ (body_storesBelow f v h)

theorem foldl_size (vs : List Nat) : ∀ (f : Frame),
    (vs.foldl serial_write_body f).buffer.size = f.buffer.size := by
  induction vs with
  | nil => intro f; rfl
  | cons v vs ih => intro f; rw [List.foldl_cons, ih, body_size]

theorem serial_write_for_eq (vs : List Nat) : ∀ (todo i : Nat) (f : Frame),
    i + todo ≤ vs.length →
    serial_write_for vs todo i f = some (((vs.drop i).take todo).foldl serial_write_body f) := by
  intro todo
  induction todo with
  | zero => intro i f _; simp [serial_write_for]
  | succ todo ih =>
    intro i f h
    have hi : i < vs.length := by omega
    rw [serial_write_for, List.getElem?_eq_getElem hi]
    simp only
    rw [ih (i + 1) _ (by omega), List.drop_eq_getElem_cons hi, List.take_succ_cons,
      List.foldl_cons]

theorem readCStr_text (cell : Nat → Option Char) (s : List Char) :
    ∀ (fuel i : Nat), (∀ c ∈ s, c ≠ NUL) → s.length < fuel →
      (∀ j, j < s.length → cell (i + j) = s[j]?) → cell (i + s.length) = some NUL →
      readCStr cell fuel i = some s := by
  induction s with
  | nil =>
    intro fuel i _ hf _ hz
    obtain ⟨fuel, rfl⟩ : ∃ k, fuel = k + 1 := ⟨fuel - 1, by simp at hf; omega⟩
    simp at hz
    simp [readCStr, hz]
  | cons c s ih =>
    intro fuel i hn hf hc hz
    simp only [List.length_cons] at hf hz
    obtain ⟨fuel, rfl⟩ : ∃ k, fuel = k + 1 := ⟨fuel - 1, by omega⟩
    have h0 := hc 0 (by simp)
    simp only [Nat.add_zero, List.getElem?_cons_zero] at h0
    have hcn : c ≠ NUL := hn c (by simp)
    have ih1 := ih fuel (i + 1) (fun x hx => hn x (by simp [hx])) (by omega)
      (fun j hj => by
        have := hc (j + 1) (by simp only [List.length_cons]; omega)
        rw [List.getElem?_cons_succ] at this
        rw [← this]; congr 1; omega)
      (by rw [← hz]; congr 1; omega)
    simp [readCStr, h0, hcn, ih1]

/-! ## The text laid down by the loop -/

theorem laidDown_length (vs : List Nat) (hr : ∀ v ∈ vs, v ≤ 65535) :
    (laidDown vs).length ≤ vs.length * 6 := by
  induction vs with
  | nil => simp [laidDown]
  | cons v vs ih =>
    have h1 := toDigits_length_le v (hr v (by simp))
    have h2 := ih (fun x hx => hr x (by simp [hx]))
    simp only [laidDown, List.length_append, List.length_cons]
    omega

theorem joinFields_cons_cons (a b : List Char) (l : List (List Char)) :
    joinFields (a :: b :: l) = a ++ ',' :: joinFields (b :: l) := by
  simp [joinFields, List.intercalate, List.intersperse]

theorem joinFields_single (a : List Char) : joinFields [a] = a := by
  simp [joinFields, List.intercalate, List.intersperse]

theorem laidDown_eq (vs : List Nat) (hne : vs ≠ []) :
    laidDown vs = joinFields (vs.map (Nat.toDigits 10)) ++ [','] := by
  induction vs with
  | nil => exact absurd rfl hne
  | cons v vs ih =>
    cases vs with
    | nil => simp [laidDown, joinFields_single]
    | cons w vs =>
      have := ih (by simp)
      rw [laidDown, this]
      simp [joinFields_cons_cons]

/-! ## The line `serial_write` prints -/

theorem serial_write_for_full (vs : List Nat) (f : Frame) :
    serial_write_for vs vs.length 0 f = some (vs.foldl serial_write_body f) := by
  rw [serial_write_for_eq vs vs.length 0 f (by omega)]
  simp

theorem mem_laidDown (vs : List Nat) :
    ∀ c ∈ laidDown vs, c.isDigit = true ∨ c = ',' := by
  induction vs with
  | nil => intro c hc; simp [laidDown] at hc
  | cons v vs ih =>
    intro c hc
    simp only [laidDown, List.mem_append, List.mem_cons] at hc
    rcases hc with hc | hc | hc
    · exact Or.inl (toDigits_isDigit v c hc)
    · exact Or.inr hc
    · exact ih c hc

theorem holds_alloc (size : Nat) : Holds { buffer := Buffer.alloc size, index := 0 } [] :=
  ⟨rfl, fun j hj => by simp at hj⟩

theorem serial_write_frame_eq (vs : List Nat) :
    serial_write_frame vs vs.length = some (serial_write_trim
      (vs.foldl serial_write_body { buffer := Buffer.alloc (vs.length * 6), index := 0 })) := by
  simp [serial_write_frame, serial_write_for_full]

theorem serial_write_line_eq (vs : List Nat) (hne : vs ≠ []) (hr : ∀ v ∈ vs, v ≤ 65535) :
    serial_write_line vs vs.length = some (joinFields (vs.map (Nat.toDigits 10))) := by
  have hH := foldl_holds vs _ [] (holds_alloc (vs.length * 6))
  have hsz : (vs.foldl serial_write_body
      { buffer := Buffer.alloc (vs.length * 6), index := 0 }).buffer.size = vs.length * 6 :=
    foldl_size vs _
  have hlen := laidDown_length vs hr
  have hmem := mem_laidDown vs
  rw [List.nil_append] at hH
  rw [laidDown_eq vs hne] at hH hlen hmem
  rw [serial_write_line, serial_write_frame_eq]
  generalize vs.foldl serial_write_body
    { buffer := Buffer.alloc (vs.length * 6), index := 0 } = F at hH hsz ⊢
  obtain ⟨hi, hc⟩ := hH
  simp only [List.length_append, List.length_singleton] at hi hlen hc
  have hidx : ¬ F.index = 0 := by rw [hi]; omega
  simp only [Option.some_bind, serial_write_trim, if_neg hidx]
  simp only [Buffer.c_str, Buffer.store, hsz, hi, Nat.add_sub_cancel]
  apply readCStr_text
  · intro c hcm
    rcases hmem c (by simp [hcm]) with h | h
    · exact isDigit_ne_NUL c h
    · rw [h]; exact comma_ne_NUL
  · omega
  · intro j hj
    have hjne : ¬ (0 + j = (joinFields (vs.map (Nat.toDigits 10))).length) := by omega
    simp only [if_neg hjne]
    rw [Nat.zero_add, hc j (by omega), List.getElem?_append_left hj]
  · simp

theorem serial_write_eq (vs : List Nat) (b : Board) (hne : vs ≠ [])
    (hr : ∀ v ∈ vs, v ≤ 65535) :
    serial_write vs vs.length b = some ((b.emit (Event.call Routine.serial_write)).emit
      (Event.println (joinFields (vs.map (Nat.toDigits 10))))) := by
  simp [serial_write, serial_write_line_eq vs hne hr]

/-! ## Shape of a joined line -/

/-- A field of the wire format: one to five decimal digits. -/
theorem toDigits_field (v : Nat) (h : v ≤ 65535) :
    1 ≤ (Nat.toDigits 10 v).length ∧ (Nat.toDigits 10 v).length ≤ 5 ∧
      ∀ c ∈ Nat.toDigits 10 v, c.isDigit = true :=
  ⟨toDigits_length_pos v, toDigits_length_le v h, toDigits_isDigit v⟩

theorem forall2_canonical (vs : List Nat) :
    List.Forall₂ IsCanonicalDecimal vs (vs.map (Nat.toDigits 10)) := by
  induction vs with
  | nil => exact List.Forall₂.nil
  | cons v vs ih => exact List.Forall₂.cons (toDigits_canonical v) ih

theorem joinFields_ne_nil (a : List Char) (l : List (List Char)) (ha : a ≠ []) :
    joinFields (a :: l) ≠ [] := by
  cases l with
  | nil => rw [joinFields_single]; exact ha
  | cons b l => rw [joinFields_cons_cons]; simp [ha]

theorem joinFields_getLast (fields : List (List Char)) (hne : fields ≠ [])
    (hd : ∀ f ∈ fields, 1 ≤ f.length ∧ ∀ c ∈ f, c.isDigit = true) :
    ∃ c, (joinFields fields).getLast? = some c ∧ c.isDigit = true := by
  induction fields with
  | nil => exact absurd rfl hne
  | cons a l ih =>
    cases l with
    | nil =>
      rw [joinFields_single]
      have ha := hd a (by simp)
      have hane : a ≠ [] := List.ne_nil_of_length_pos ha.1
      exact ⟨a.getLast hane, List.getLast?_eq_getLast a hane, ha.2 _ (List.getLast_mem hane)⟩
    | cons b l =>
      obtain ⟨c, hc, hcd⟩ := ih (by simp) (fun f hf => hd f (by simp [hf]))
      refine ⟨c, ?_, hcd⟩
      rw [joinFields_cons_cons, List.getLast?_append]
      cases hX : joinFields (b :: l) with
      | nil => rw [hX] at hc; simp at hc
      | cons x xs => rw [List.getLast?_cons_cons, ← hX, hc]; rfl

theorem matchesFrom_digits (ds : List Char) (hd : ∀ c ∈ ds, c.isDigit = true) :
    ∀ (k : Nat) (rest : List Char), k + ds.length ≤ 5 →
      matchesFrom k (ds ++ rest) = matchesFrom (k + ds.length) rest := by
  induction ds with
  | nil => intro k rest _; rfl
  | cons c ds ih =>
    intro k rest hk
    simp only [List.length_cons] at hk
    have hcd : c.isDigit = true := hd c (by simp)
    have hk5 : k < 5 := by omega
    rw [List.cons_append, matchesFrom, if_pos hcd, if_pos hk5,
      ih (fun x hx => hd x (by simp [hx])) (k + 1) rest (by omega)]
    congr 1
    simp only [List.length_cons]
    omega

theorem matchesLine_joinFields (fields : List (List Char)) (hne : fields ≠ [])
    (hd : ∀ f ∈ fields, 1 ≤ f.length ∧ f.length ≤ 5 ∧ ∀ c ∈ f, c.isDigit = true) :
    matchesLine (joinFields fields) = true := by
  unfold matchesLine
  induction fields with
  | nil => exact absurd rfl hne
  | cons a l ih =>
    obtain ⟨h1, h5, hdig⟩ := hd a (by simp)
    cases l with
    | nil =>
      rw [joinFields_single]
      have := matchesFrom_digits a hdig 0 [] (by omega)
      rw [List.append_nil] at this
      rw [this]
      simp [matchesFrom, h1]
    | cons b l =>
      have hcomma : ¬ (',' : Char).isDigit = true := by decide
      have h1' : 1 ≤ 0 + a.length := by omega
      rw [joinFields_cons_cons, matchesFrom_digits a hdig 0 _ (by omega), matchesFrom,
        if_neg hcomma, if_pos rfl, if_pos h1']
      exact ih (by simp) (fun f hf => hd f (by simp [hf]))

theorem count_comma_digits (f : List Char) (hd : ∀ c ∈ f, c.isDigit = true) :
    f.count ',' = 0 := by
  rw [List.count_eq_zero]
  intro hm
  exact isDigit_ne_comma _ (hd _ hm) rfl

theorem count_joinFields (fields : List (List Char)) (hne : fields ≠ [])
    (hd : ∀ f ∈ fields, ∀ c ∈ f, c.isDigit = true) :
    (joinFields fields).count ',' = fields.length - 1 := by
  induction fields with
  | nil => exact absurd rfl hne
  | cons a l ih =>
    have ha := count_comma_digits a (hd a (by simp))
    cases l with
    | nil => rw [joinFields_single, ha]; rfl
    | cons b l =>
      have := ih (by simp) (fun f hf => hd f (by simp [hf]))
      rw [joinFields_cons_cons, List.count_append, ha, List.count_cons_self, this]
      simp

/-! ## Traces -/

theorem linesOf_append (xs ys : List Event) : linesOf (xs ++ ys) = linesOf xs ++ linesOf ys := by
  induction xs with
  | nil => rfl
  | cons e xs ih => cases e <;> simp [linesOf, ih]

theorem callsOf_append (xs ys : List Event) : callsOf (xs ++ ys) = callsOf xs ++ callsOf ys := by
  induction xs with
  | nil => rfl
  | cons e xs ih => cases e <;> simp [callsOf, ih]

theorem motionOf_append (xs ys : List Event) :
    motionOf (xs ++ ys) = motionOf xs ++ motionOf ys := by
  induction xs with
  | nil => rfl
  | cons e xs ih => cases e <;> simp [motionOf, ih]

/-- The line of an acquisition: the array is zero-initialised and `perform_sampling` leaves it
alone. -/
theorem loop_acquire_eq (parseInt : List Char → Int × List Char) (b : Board)
    (h : b.mode = 1) :
    loop parseInt b = some { b with
      mode := 0
      trace := b.trace ++ [Event.call Routine.perform_sampling,
        Event.call Routine.serial_write,
        Event.println (joinFields ((List.replicate samples 0).map (Nat.toDigits 10)))] } := by
  have h0 : ¬ b.mode = 0 := by omega
  have hs : serial_write (List.replicate samples 0) (List.replicate samples 0).length
      (b.emit (Event.call Routine.perform_sampling)) = _ :=
    serial_write_eq (List.replicate samples 0) _ (by simp [samples])
      (fun v hv => by rw [List.eq_of_mem_replicate hv]; omega)
  rw [List.length_replicate] at hs
  unfold loop
  rw [if_neg h0, if_pos h]
  simp only [perform_sampling]
  rw [hs]
  simp [Board.emit]

theorem loop_error_eq (parseInt : List Char → Int × List Char) (b : Board)
    (h0 : b.mode ≠ 0) (h1 : b.mode ≠ 1) :
    loop parseInt b =
      some { b with mode := 0, trace := b.trace ++ [Event.println unknownNotice] } := by
  simp [loop, h0, h1, Board.emit]

/-! ## Stores of `serial_write` -/

theorem storeAll_stored_length (cs : List Char) : ∀ (b : Buffer) (i : Nat),
    (b.storeAll i cs).stored.length = b.stored.length + cs.length := by
  induction cs with
  | nil => intro b i; rfl
  | cons c cs ih =>
    intro b i
    rw [Buffer.storeAll, ih]
    simp [Buffer.store]
    omega

theorem body_stored_length (f : Frame) (v : Nat) :
    (serial_write_body f v).buffer.stored.length =
      f.buffer.stored.length + (Nat.toDigits 10 v).length + 2 := by
  simp [serial_write_body, sprintf_u, Buffer.store, storeAll_stored_length]
  omega

theorem foldl_stored_length (vs : List Nat) : ∀ (f : Frame),
    (vs.foldl serial_write_body f).buffer.stored.length =
      f.buffer.stored.length + (laidDown vs).length + vs.length := by
  induction vs with
  | nil => intro f; simp [laidDown]
  | cons v vs ih =>
    intro f
    rw [List.foldl_cons, ih, body_stored_length]
    simp [laidDown]
    omega

theorem storesBelow_alloc (size : Nat) :
    StoresBelow { buffer := Buffer.alloc size, index := 0 } := by
  intro p hp
  simp [Buffer.alloc] at hp

theorem laidDown_take_length (vs : List Nat) (hr : ∀ v ∈ vs, v ≤ 65535) (k : Nat)
    (hk : k ≤ vs.length) : (laidDown (vs.take k)).length ≤ vs.length * 6 := by
  have h1 := laidDown_length (vs.take k) (fun v hv => hr v (List.mem_of_mem_take hv))
  rw [List.length_take] at h1
  omega

/-! ## The integer conversion and the reference decoder -/

theorem long_to_int_of_range (c : Int) (h1 : -32768 ≤ c) (h2 : c ≤ 32767) :
    long_to_int c = c := by
  simp only [long_to_int, INT_BITS, Int.bmod]
  norm_num
  split_ifs <;> omega

theorem stateOf_listen : stateOf 0 = State.LISTEN := rfl

theorem stateOf_acquire : stateOf 1 = State.ACQUIRE := rfl

theorem stateOf_error (m : Int) (h0 : m ≠ 0) (h1 : m ≠ 1) : stateOf m = State.ERROR := by
  simp [stateOf, h0, h1]

theorem loop_listen_trace (parseInt : List Char → Int × List Char) (b : Board)
    (hm : b.mode = 0) :
    ∃ b', loop parseInt b = some b' ∧ b'.trace = b.trace := by
  by_cases ha : 0 < b.rx.length
  · exact ⟨{ b with mode := long_to_int (parseInt b.rx).1, rx := (parseInt b.rx).2 },
      by simp [loop, hm, ha], rfl⟩
  · exact ⟨b, by simp [loop, hm, ha], rfl⟩

theorem skipToNumber_suffix (rx : List Char) :
    ∃ consumed, rx = consumed ++ skipToNumber rx := by
  induction rx with
  | nil => exact ⟨[], rfl⟩
  | cons c cs ih =>
    by_cases h : c = '-' ∨ c.isDigit = true
    · exact ⟨[], by simp [skipToNumber, h]⟩
    · obtain ⟨pre, hpre⟩ := ih
      refine ⟨c :: pre, ?_⟩
      rw [skipToNumber, if_neg h, List.cons_append, ← hpre]

theorem readDigits_suffix (cs : List Char) : ∀ acc : Nat,
    ∃ consumed, cs = consumed ++ (readDigits acc cs).2 := by
  induction cs with
  | nil => intro acc; exact ⟨[], rfl⟩
  | cons c cs ih =>
    intro acc
    by_cases h : c.isDigit = true
    · obtain ⟨pre, hpre⟩ := ih (acc * 10 + (c.toNat - 48))
      refine ⟨c :: pre, ?_⟩
      rw [readDigits, if_pos h, List.cons_append, ← hpre]
    · exact ⟨[], by simp [readDigits, h]⟩

theorem Stream_parseInt_suffix (rx : List Char) :
    ∃ consumed, rx = consumed ++ (Stream_parseInt rx).2 := by
  obtain ⟨pre, hpre⟩ := skipToNumber_suffix rx
  unfold Stream_parseInt
  cases hs : skipToNumber rx with
  | nil => exact ⟨rx, by simp⟩
  | cons c cs =>
    rw [hs] at hpre
    by_cases hc : c = '-'
    · obtain ⟨mid, hmid⟩ := readDigits_suffix cs 0
      refine ⟨pre ++ [c] ++ mid, ?_⟩
      simp only [hc, if_true]
      rw [List.append_assoc, List.append_assoc, ← hmid, hpre, hc]
      simp
    · obtain ⟨mid, hmid⟩ := readDigits_suffix (c :: cs) 0
      refine ⟨pre ++ mid, ?_⟩
      simp only [hc, if_false]
      rw [List.append_assoc, ← hmid, hpre]

theorem loop_listen_eq (parseInt : List Char → Int × List Char) (l : Board)
    (hl : l.mode = 0) (ha : 0 < l.rx.length) :
    loop parseInt l =
      some { l with mode := long_to_int (parseInt l.rx).1, rx := (parseInt l.rx).2 } := by
  simp [loop, hl, ha]

/-- Start-up followed by the command `1`: after one step the machine is in ACQUIRE. -/
theorem startup_command_one (analogIn : Nat → Pin → Nat) :
    runLoop Stream_parseInt 1 (setup (Board.powerUp "1\n".toList analogIn)) =
      some { mode := 1, rx := "\n".toList, analogIn := analogIn,
             trace := (setup (Board.powerUp "1\n".toList analogIn)).trace } := by
  have hp : Stream_parseInt "1\n".toList = (1, "\n".toList) := by decide
  have hl : long_to_int 1 = 1 := by decide
  have ha : 0 < (setup (Board.powerUp "1\n".toList analogIn)).rx.length :=
    show 0 < "1\n".toList.length by decide
  have hrx : (setup (Board.powerUp "1\n".toList analogIn)).rx = "1\n".toList := rfl
  show (loop Stream_parseInt _).bind (fun b => some b) = _
  rw [loop_listen_eq _ _ rfl ha, Option.some_bind, hrx, hp, hl]
  rfl

/-- Start-up followed by the command `1`: the lines transmitted after two steps. -/
theorem startup_command_one_lines (analogIn : Nat → Pin → Nat) :
    (runLoop Stream_parseInt 2 (setup (Board.powerUp "1\n".toList analogIn))).map
      (fun b => linesOf b.trace) = some [readyNotice, "0,0,0,0,0,0,0,0,0,0".toList] := by
  have h1 := startup_command_one analogIn
  have h2 : runLoop Stream_parseInt 2 (setup (Board.powerUp "1\n".toList analogIn)) =
      (runLoop Stream_parseInt 1 (setup (Board.powerUp "1\n".toList analogIn))).bind
        (loop Stream_parseInt) := by
    show (loop Stream_parseInt _).bind (fun b => (loop Stream_parseInt b).bind (fun c => some c))
      = ((loop Stream_parseInt _).bind (fun b => some b)).bind (loop Stream_parseInt)
    cases loop Stream_parseInt (setup (Board.powerUp "1\n".toList analogIn)) with
    | none => rfl
    | some b => cases hb : loop Stream_parseInt b <;> simp [hb]
  rw [h2, h1, Option.some_bind, loop_acquire_eq Stream_parseInt _ rfl, Option.map_some']
  simp only [linesOf_append]
  have e1 : linesOf (setup (Board.powerUp "1\n".toList analogIn)).trace = [readyNotice] :=
    rfl
  have e2 : joinFields ((List.replicate samples 0).map (Nat.toDigits 10)) =
      "0,0,0,0,0,0,0,0,0,0".toList := by decide
  rw [e1, e2]
  rfl

/-! ## The claims -/

/-- C1: for a non-empty array of 16-bit values, the line `serial_write` hands to
`Serial.println` is the values' canonical decimal numerals in input order, joined by single
commas: each field is a non-empty run of digits without a leading zero (the value 0 gives
`0`) that denotes its value, nothing but digits and the joining commas occurs, and the line
ends in a digit. -/
theorem serial_write_canonical (sensor_values : List Nat) (b : Board)
    (hne : sensor_values ≠ []) (h16 : ∀ v ∈ sensor_values, v ≤ 65535) :
    ∃ fields : List (List Char),
      List.Forall₂ IsCanonicalDecimal sensor_values fields ∧
      serial_write_line sensor_values sensor_values.length = some (joinFields fields) ∧
      serial_write sensor_values sensor_values.length b =
        some ((b.emit (Event.call Routine.serial_write)).emit
          (Event.println (joinFields fields))) ∧
      ∃ c, (joinFields fields).getLast? = some c ∧ c.isDigit = true := by
  refine ⟨sensor_values.map (Nat.toDigits 10), forall2_canonical sensor_values,
    serial_write_line_eq sensor_values hne h16, serial_write_eq sensor_values b hne h16, ?_⟩
  apply joinFields_getLast
  · simpa using hne
  · intro f hf
    obtain ⟨v, _, rfl⟩ := List.mem_map.mp hf
    exact ⟨toDigits_length_pos v, toDigits_isDigit v⟩

theorem serial_write_canonical_witness :
    ([512, 0, 65535] : List Nat) ≠ [] ∧ (∀ v ∈ ([512, 0, 65535] : List Nat), v ≤ 65535) ∧
    ∃ fields : List (List Char),
      List.Forall₂ IsCanonicalDecimal [512, 0, 65535] fields ∧
      serial_write_line [512, 0, 65535] 3 = some (joinFields fields) ∧
      serial_write [512, 0, 65535] 3 (Board.powerUp [] (fun _ _ => 0)) =
        some (((Board.powerUp [] (fun _ _ => 0)).emit (Event.call Routine.serial_write)).emit
          (Event.println (joinFields fields))) ∧
      ∃ c, (joinFields fields).getLast? = some c ∧ c.isDigit = true :=
  ⟨by decide, by decide,
    serial_write_canonical [512, 0, 65535] (Board.powerUp [] (fun _ _ => 0)) (by decide)
      (by decide)⟩

/-- C2: for `N ≥ 1` values in `[0, 65535]` the line of `serial_write` matches
`^\d{1,5}(,\d{1,5})*$`: it is `N` fields of one to five digits joined by commas, holds
exactly `N - 1` commas, and ends in a digit. -/
theorem serial_write_line_format (sensor_values : List Nat)
    (hN : 1 ≤ sensor_values.length) (hr : ∀ v ∈ sensor_values, v ≤ 65535) :
    ∃ (line : List Char) (fields : List (List Char)),
      serial_write_line sensor_values sensor_values.length = some line ∧
      matchesLine line = true ∧
      line = joinFields fields ∧
      fields.length = sensor_values.length ∧
      (∀ f ∈ fields, 1 ≤ f.length ∧ f.length ≤ 5 ∧ ∀ c ∈ f, c.isDigit = true) ∧
      line.count ',' = sensor_values.length - 1 ∧
      ∃ c, line.getLast? = some c ∧ c.isDigit = true := by
  have hne : sensor_values ≠ [] := List.ne_nil_of_length_pos hN
  have hne' : sensor_values.map (Nat.toDigits 10) ≠ [] := by simpa using hne
  have hf : ∀ f ∈ sensor_values.map (Nat.toDigits 10),
      1 ≤ f.length ∧ f.length ≤ 5 ∧ ∀ c ∈ f, c.isDigit = true := by
    intro f hf
    obtain ⟨v, hv, rfl⟩ := List.mem_map.mp hf
    exact toDigits_field v (hr v hv)
  refine ⟨_, sensor_values.map (Nat.toDigits 10), serial_write_line_eq sensor_values hne hr,
    matchesLine_joinFields _ hne' hf, rfl, List.length_map _ _, hf, ?_, ?_⟩
  · rw [count_joinFields _ hne' (fun f h => (hf f h).2.2), List.length_map]
  · exact joinFields_getLast _ hne' (fun f h => ⟨(hf f h).1, (hf f h).2.2⟩)

theorem serial_write_line_format_witness :
    1 ≤ ([7, 1023, 40000] : List Nat).length ∧
    (∀ v ∈ ([7, 1023, 40000] : List Nat), v ≤ 65535) ∧
    ∃ (line : List Char) (fields : List (List Char)),
      serial_write_line [7, 1023, 40000] 3 = some line ∧
      matchesLine line = true ∧
      line = joinFields fields ∧
      fields.length = 3 ∧
      (∀ f ∈ fields, 1 ≤ f.length ∧ f.length ≤ 5 ∧ ∀ c ∈ f, c.isDigit = true) ∧
      line.count ',' = 3 - 1 ∧
      ∃ c, line.getLast? = some c ∧ c.isDigit = true :=
  ⟨by decide, by decide, serial_write_line_format [7, 1023, 40000] (by decide) (by decide)⟩

/-- C3, the code at `samples = 0`: the array has no cell, the loop and the guarded store of
the terminator are both skipped, so nothing at all is stored and `Serial.println` reads a
cell outside the array. The text sent is not defined by the program; it is not the empty
line the claim asks for. -/
theorem serial_write_empty_undefined :
    (serial_write_frame [] 0).map (fun f => (f.buffer.size, f.buffer.stored, f.index)) =
        some (0, [], 0) ∧
    serial_write_line [] 0 = none ∧
    serial_write_line [] 0 ≠ some [] ∧
    serial_write [] 0 (Board.powerUp [] (fun _ _ => 0)) = none := by
  refine ⟨rfl, rfl, ?_, rfl⟩
  intro h
  have : serial_write_line [] 0 = none := rfl
  rw [this] at h
  exact Option.noConfusion h

/-- C4, as stated, fails at the decoded value 0. The host sends `0` and a newline: the
LISTEN step decodes 0, stores it in `mode`, and the machine is in LISTEN again, not in
ERROR; the same happens for the digit-free input left behind (the newline); after three
steps no line at all has been transmitted, so no unknown-command notice is reported. -/
theorem listen_zero_counterexample :
    (Stream_parseInt "0\n".toList).1 = 0 ∧
    (Stream_parseInt "\n".toList).1 = 0 ∧
    (loop Stream_parseInt (Board.powerUp "0\n".toList (fun _ _ => 0))).map
      (fun b => stateOf b.mode) = some State.LISTEN ∧
    (loop Stream_parseInt (Board.powerUp "0\n".toList (fun _ _ => 0))).map
      (fun b => stateOf b.mode) ≠ some State.ERROR ∧
    (loop Stream_parseInt (Board.powerUp "\n".toList (fun _ _ => 0))).map
      (fun b => stateOf b.mode) = some State.LISTEN ∧
    (runLoop Stream_parseInt 3 (Board.powerUp "0\n".toList (fun _ _ => 0))).map
      (fun b => (stateOf b.mode, b.rx, linesOf b.trace)) = some (State.LISTEN, [], []) := by
  refine ⟨by decide, by decide, by decide, by decide, by decide, by decide⟩

/-- C4, amended: in LISTEN (mode 0) with input available, for every decoded value `c` in the
range of `int`, the step stores `c` in `mode` and transmits nothing; `c = 1` leads to
ACQUIRE; `c = 0` (what an absent or digit-free input decodes to) leaves the machine in LISTEN
and the following step transmits nothing either; every other `c` leads to ERROR, whose step
then transmits the unknown-command notice. -/
theorem listen_dispatch (parseInt : List Char → Int × List Char) (b : Board) (c : Int)
    (hm : b.mode = 0) (ha : 0 < b.rx.length) (hc : (parseInt b.rx).1 = c)
    (hlo : -32768 ≤ c) (hhi : c ≤ 32767) :
    ∃ b', loop parseInt b = some b' ∧ b'.mode = c ∧ b'.trace = b.trace ∧
      (c = 1 → stateOf b'.mode = State.ACQUIRE) ∧
      (c = 0 → stateOf b'.mode = State.LISTEN ∧
        ∃ b2, loop parseInt b' = some b2 ∧ b2.trace = b.trace) ∧
      (c ≠ 1 → c ≠ 0 → stateOf b'.mode = State.ERROR ∧
        ∃ b2, loop parseInt b' = some b2 ∧
          linesOf b2.trace = linesOf b.trace ++ [unknownNotice]) := by
  have hl := long_to_int_of_range c hlo hhi
  have hstep : loop parseInt b = some { b with mode := c, rx := (parseInt b.rx).2 } := by
    simp [loop, hm, ha, hc, hl]
  refine ⟨_, hstep, rfl, rfl, ?_, ?_, ?_⟩
  · intro h1
    subst h1
    rfl
  · intro h0
    subst h0
    exact ⟨rfl, loop_listen_trace parseInt { b with mode := 0, rx := (parseInt b.rx).2 } rfl⟩
  · intro h1 h0
    refine ⟨stateOf_error c h0 h1, _, loop_error_eq parseInt _ h0 h1, ?_⟩
    simp [linesOf_append, linesOf]

theorem listen_dispatch_witness :
    (Board.powerUp "9\n".toList (fun _ _ => 0)).mode = 0 ∧
    0 < (Board.powerUp "9\n".toList (fun _ _ => 0)).rx.length ∧
    (Stream_parseInt (Board.powerUp "9\n".toList (fun _ _ => 0)).rx).1 = 9 ∧
    ∃ b', loop Stream_parseInt (Board.powerUp "9\n".toList (fun _ _ => 0)) = some b' ∧
      b'.mode = 9 ∧ b'.trace = (Board.powerUp "9\n".toList (fun _ _ => 0)).trace ∧
      ((9 : Int) = 1 → stateOf b'.mode = State.ACQUIRE) ∧
      ((9 : Int) = 0 → stateOf b'.mode = State.LISTEN ∧
        ∃ b2, loop Stream_parseInt b' = some b2 ∧
          b2.trace = (Board.powerUp "9\n".toList (fun _ _ => 0)).trace) ∧
      ((9 : Int) ≠ 1 → (9 : Int) ≠ 0 → stateOf b'.mode = State.ERROR ∧
        ∃ b2, loop Stream_parseInt b' = some b2 ∧
          linesOf b2.trace =
            linesOf (Board.powerUp "9\n".toList (fun _ _ => 0)).trace ++ [unknownNotice]) :=
  ⟨rfl, by decide, by decide,
    listen_dispatch Stream_parseInt (Board.powerUp "9\n".toList (fun _ _ => 0)) 9 rfl
      (by decide) (by decide) (by decide) (by decide)⟩

/-- C5: in every state other than LISTEN and ACQUIRE (every value of `mode` other than 0 and
1, negative ones included) one step of `loop` makes exactly one call, the `println` of the
fixed unknown-command notice: one line is transmitted, no routine is entered (neither
`perform_sampling` nor `serial_write`), no motor pin is written, the pending input is left
alone, and the state is LISTEN afterwards. -/
theorem loop_error_step (parseInt : List Char → Int × List Char) (b : Board)
    (h0 : b.mode ≠ 0) (h1 : b.mode ≠ 1) :
    ∃ b', loop parseInt b = some b' ∧
      b'.trace = b.trace ++ [Event.println unknownNotice] ∧
      unknownNotice = "Unknown command. Setting back to listen mode".toList ∧
      linesOf b'.trace = linesOf b.trace ++ [unknownNotice] ∧
      callsOf b'.trace = callsOf b.trace ∧
      motionOf b'.trace = motionOf b.trace ∧
      b'.rx = b.rx ∧ b'.mode = 0 ∧ stateOf b'.mode = State.LISTEN := by
  refine ⟨_, loop_error_eq parseInt b h0 h1, rfl, rfl, ?_, ?_, ?_, rfl, rfl, rfl⟩
  · simp [linesOf_append, linesOf]
  · simp [callsOf_append, callsOf]
  · simp [motionOf_append, motionOf]

theorem loop_error_step_witness :
    (loop Stream_parseInt (Board.powerUp "9\n".toList (fun _ _ => 0))).map
      (fun b => (b.mode, b.rx, b.trace)) = some (9, "\n".toList, []) ∧
    (9 : Int) ≠ 0 ∧ (9 : Int) ≠ 1 ∧
    ∃ b', loop Stream_parseInt
        (Board.mk 9 "\n".toList (fun _ _ => 0) []) = some b' ∧
      b'.trace = [] ++ [Event.println unknownNotice] ∧
      unknownNotice = "Unknown command. Setting back to listen mode".toList ∧
      linesOf b'.trace = linesOf [] ++ [unknownNotice] ∧
      callsOf b'.trace = callsOf [] ∧
      motionOf b'.trace = motionOf [] ∧
      b'.rx = "\n".toList ∧ b'.mode = 0 ∧ stateOf b'.mode = State.LISTEN :=
  ⟨by decide, by decide, by decide,
    loop_error_step Stream_parseInt
      (Board.mk 9 "\n".toList (fun _ _ => 0) [])
      (by decide) (by decide)⟩

/-- C6: one step of `loop` in ACQUIRE (mode 1) enters `perform_sampling` and `serial_write`
and transmits exactly one line; the line is `samples = 10` canonical decimal numerals of
values in `0..65535` joined by commas, it matches the wire grammar, holds 9 commas and ends
in a digit; the state is LISTEN afterwards. -/
theorem loop_acquire_step (parseInt : List Char → Int × List Char) (b : Board)
    (h : b.mode = 1) :
    ∃ (b' : Board) (line : List Char) (values : List Nat) (fields : List (List Char)),
      loop parseInt b = some b' ∧
      b'.trace = b.trace ++ [Event.call Routine.perform_sampling,
        Event.call Routine.serial_write, Event.println line] ∧
      linesOf b'.trace = linesOf b.trace ++ [line] ∧
      values.length = samples ∧ samples = 10 ∧ (∀ v ∈ values, v ≤ 65535) ∧
      List.Forall₂ IsCanonicalDecimal values fields ∧
      line = joinFields fields ∧
      matchesLine line = true ∧
      line.count ',' = samples - 1 ∧
      (∃ c, line.getLast? = some c ∧ c.isDigit = true) ∧
      b'.mode = 0 ∧ stateOf b'.mode = State.LISTEN := by
  have hv : ∀ v ∈ List.replicate samples 0, v ≤ 65535 := by
    intro v hv
    rw [List.eq_of_mem_replicate hv]
    omega
  have hne : (List.replicate samples 0).map (Nat.toDigits 10) ≠ [] := by simp [samples]
  have hf : ∀ f ∈ (List.replicate samples 0).map (Nat.toDigits 10),
      1 ≤ f.length ∧ f.length ≤ 5 ∧ ∀ c ∈ f, c.isDigit = true := by
    intro f hf
    obtain ⟨v, hv', rfl⟩ := List.mem_map.mp hf
    exact toDigits_field v (hv v hv')
  refine ⟨_, _, List.replicate samples 0, _, loop_acquire_eq parseInt b h, rfl, ?_,
    List.length_replicate _ _, rfl, hv, forall2_canonical _, rfl,
    matchesLine_joinFields _ hne hf, ?_, ?_, rfl, rfl⟩
  · simp [linesOf_append, linesOf]
  · rw [count_joinFields _ hne (fun f h => (hf f h).2.2), List.length_map,
      List.length_replicate]
  · exact joinFields_getLast _ hne (fun f h => ⟨(hf f h).1, (hf f h).2.2⟩)

theorem loop_acquire_step_witness :
    (Board.mk 1 "\n".toList (fun _ _ => 700) []).mode = 1 ∧
    ∃ (b' : Board) (line : List Char) (values : List Nat) (fields : List (List Char)),
      loop Stream_parseInt (Board.mk 1 "\n".toList (fun _ _ => 700) []) = some b' ∧
      b'.trace = (Board.mk 1 "\n".toList (fun _ _ => 700) []).trace ++
        [Event.call Routine.perform_sampling, Event.call Routine.serial_write,
          Event.println line] ∧
      linesOf b'.trace = linesOf (Board.mk 1 "\n".toList (fun _ _ => 700) []).trace ++ [line] ∧
      values.length = samples ∧ samples = 10 ∧ (∀ v ∈ values, v ≤ 65535) ∧
      List.Forall₂ IsCanonicalDecimal values fields ∧
      line = joinFields fields ∧
      matchesLine line = true ∧
      line.count ',' = samples - 1 ∧
      (∃ c, line.getLast? = some c ∧ c.isDigit = true) ∧
      b'.mode = 0 ∧ stateOf b'.mode = State.LISTEN :=
  ⟨rfl, loop_acquire_step Stream_parseInt (Board.mk 1 "\n".toList (fun _ _ => 700) []) rfl⟩

/-- C7, the code at the failing input: the host sends `1` after start-up. Whatever the
analog inputs return (so also when the sensor always reads 512), the response line is ten
zeros: `perform_sampling` hands the zero-initialised array back untouched. It is not the line
of ten times 512 the claim asks for. -/
theorem acquire_ignores_sensor :
    (∀ analogIn : Nat → Pin → Nat,
      (runLoop Stream_parseInt 2 (setup (Board.powerUp "1\n".toList analogIn))).map
        (fun b => linesOf b.trace) = some [readyNotice, "0,0,0,0,0,0,0,0,0,0".toList]) ∧
    (runLoop Stream_parseInt 2 (setup (Board.powerUp "1\n".toList (fun _ _ => 512)))).map
        (fun b => linesOf b.trace) ≠
      some [readyNotice, "512,512,512,512,512,512,512,512,512,512".toList] ∧
    (∀ (vs : List Nat) (n : Nat) (b : Board), (perform_sampling vs n b).1 = vs) := by
  refine ⟨startup_command_one_lines, by decide, fun _ _ _ => rfl⟩

/-- C8, as stated, fails. The Hall input never changes, so no trigger can be observed, and
`setup` makes no call beyond the pin set-up, the serial set-up, the ready line and the entry
into the empty `set_motor_to_origin`. The host then sends `1`: the device answers with a
readings line of ten values, not with a failure response. -/
theorem not_homed_counterexample :
    (setup (Board.powerUp "1\n".toList (fun _ _ => 0))).trace =
      [Event.pinMode M1_DIR_PIN true, Event.pinMode M1_STEP_PIN true,
        Event.pinMode M1_EN_PIN true, Event.pinMode HALL_PIN false, Event.pinMode RF_PIN false,
        Event.digitalWrite M1_EN_PIN false, Event.digitalWrite M1_DIR_PIN false,
        Event.setTimeout 1000, Event.begin 115200, Event.println readyNotice,
        Event.call Routine.set_motor_to_origin] ∧
    (runLoop Stream_parseInt 2 (setup (Board.powerUp "1\n".toList (fun _ _ => 0)))).map
        (fun b => linesOf b.trace) = some [readyNotice, "0,0,0,0,0,0,0,0,0,0".toList] ∧
    matchesLine "0,0,0,0,0,0,0,0,0,0".toList = true ∧
    "0,0,0,0,0,0,0,0,0,0".toList.count ',' = samples - 1 := by
  refine ⟨by decide, by decide, by decide, by decide⟩

/-- C8, amended: the program keeps no record of how homing went. Whatever the Hall input
does, so also when no trigger is ever observed, in every state reached after start-up a
step in ACQUIRE (a command 1 was decoded) transmits exactly one line, a readings line of
`samples` fields, and writes no motor pin. -/
theorem acquire_after_any_homing (parseInt : List Char → Int × List Char)
    (rx : List Char) (analogIn : Nat → Pin → Nat) (n : Nat) (b : Board)
    (_hreach : runLoop parseInt n (setup (Board.powerUp rx analogIn)) = some b)
    (hm : b.mode = 1) :
    ∃ (b' : Board) (line : List Char), loop parseInt b = some b' ∧
      linesOf b'.trace = linesOf b.trace ++ [line] ∧
      matchesLine line = true ∧
      line.count ',' = samples - 1 ∧
      motionOf b'.trace = motionOf b.trace := by
  have hv : ∀ v ∈ List.replicate samples 0, v ≤ 65535 := by
    intro v hv
    rw [List.eq_of_mem_replicate hv]
    omega
  have hne : (List.replicate samples 0).map (Nat.toDigits 10) ≠ [] := by simp [samples]
  have hf : ∀ f ∈ (List.replicate samples 0).map (Nat.toDigits 10),
      1 ≤ f.length ∧ f.length ≤ 5 ∧ ∀ c ∈ f, c.isDigit = true := by
    intro f hf
    obtain ⟨v, hv', rfl⟩ := List.mem_map.mp hf
    exact toDigits_field v (hv v hv')
  refine ⟨_, _, loop_acquire_eq parseInt b hm, ?_, matchesLine_joinFields _ hne hf, ?_, ?_⟩
  · simp [linesOf_append, linesOf]
  · rw [count_joinFields _ hne (fun f h => (hf f h).2.2), List.length_map,
      List.length_replicate]
  · simp [motionOf_append, motionOf]

theorem acquire_after_any_homing_witness :
    runLoop Stream_parseInt 1 (setup (Board.powerUp "1\n".toList (fun _ _ => 0))) =
      some (Board.mk 1 "\n".toList (fun _ _ => 0)
        (setup (Board.powerUp "1\n".toList (fun _ _ => 0))).trace) ∧
    ∃ (b' : Board) (line : List Char),
      loop Stream_parseInt (Board.mk 1 "\n".toList (fun _ _ => 0)
          (setup (Board.powerUp "1\n".toList (fun _ _ => 0))).trace) = some b' ∧
      linesOf b'.trace =
        linesOf (setup (Board.powerUp "1\n".toList (fun _ _ => 0))).trace ++ [line] ∧
      matchesLine line = true ∧
      line.count ',' = samples - 1 ∧
      motionOf b'.trace = motionOf (setup (Board.powerUp "1\n".toList (fun _ _ => 0))).trace :=
  ⟨rfl, acquire_after_any_homing Stream_parseInt "1\n".toList (fun _ _ => 0) 1
    (Board.mk 1 "\n".toList (fun _ _ => 0)
      (setup (Board.powerUp "1\n".toList (fun _ _ => 0))).trace) rfl rfl⟩

/-- C9: in ACQUIRE and in ERROR (every `mode` other than 0) one step of `loop` returns, is
back in LISTEN, and has not touched the serial input: the pending stream is the same before
and after, and the step does the same whatever the stream holds, so bytes that arrive
meanwhile change nothing and stay pending. The next step, a LISTEN step, is the one that
decodes: it applies the decoder once to the front of that same stream and keeps what the
decoder leaves. So does every LISTEN step with input available: one decode per step, from
the front of the stream (the reference decoder consumes a leading part of it and leaves the
rest in order). -/
theorem loop_busy_keeps_input (parseInt : List Char → Int × List Char) (b : Board)
    (h : b.mode ≠ 0) :
    ∃ b', loop parseInt b = some b' ∧ b'.rx = b.rx ∧ b'.mode = 0 ∧
      (∀ rx', loop parseInt { b with rx := rx' } = some { b' with rx := rx' }) ∧
      (0 < b.rx.length → loop parseInt b' =
        some { b' with mode := long_to_int (parseInt b.rx).1, rx := (parseInt b.rx).2 }) ∧
      (∀ l : Board, l.mode = 0 → 0 < l.rx.length → loop parseInt l =
        some { l with mode := long_to_int (parseInt l.rx).1, rx := (parseInt l.rx).2 }) ∧
      (∀ rx, ∃ consumed, rx = consumed ++ (Stream_parseInt rx).2) := by
  have hlisten : ∀ l : Board, l.mode = 0 → 0 < l.rx.length → loop parseInt l =
      some { l with mode := long_to_int (parseInt l.rx).1, rx := (parseInt l.rx).2 } := by
    intro l hl ha
    simp [loop, hl, ha]
  by_cases h1 : b.mode = 1
  · refine ⟨_, loop_acquire_eq parseInt b h1, rfl, rfl, ?_, ?_, hlisten, Stream_parseInt_suffix⟩
    · intro rx'
      exact loop_acquire_eq parseInt { b with rx := rx' } h1
    · intro ha
      exact hlisten _ rfl ha
  · refine ⟨_, loop_error_eq parseInt b h h1, rfl, rfl, ?_, ?_, hlisten, Stream_parseInt_suffix⟩
    · intro rx'
      exact loop_error_eq parseInt { b with rx := rx' } h h1
    · intro ha
      exact hlisten _ rfl ha

theorem loop_busy_keeps_input_witness :
    (Board.mk 1 "9\n".toList (fun _ _ => 0) []).mode ≠ 0 ∧
    ∃ b', loop Stream_parseInt (Board.mk 1 "9\n".toList (fun _ _ => 0) []) = some b' ∧
      b'.rx = (Board.mk 1 "9\n".toList (fun _ _ => 0) []).rx ∧ b'.mode = 0 ∧
      (∀ rx', loop Stream_parseInt (Board.mk 1 rx' (fun _ _ => 0) []) =
        some { b' with rx := rx' }) ∧
      (0 < (Board.mk 1 "9\n".toList (fun _ _ => 0) []).rx.length → loop Stream_parseInt b' =
        some { b' with
          mode := long_to_int (Stream_parseInt (Board.mk 1 "9\n".toList (fun _ _ => 0) []).rx).1
          rx := (Stream_parseInt (Board.mk 1 "9\n".toList (fun _ _ => 0) []).rx).2 }) ∧
      (∀ l : Board, l.mode = 0 → 0 < l.rx.length → loop Stream_parseInt l =
        some { l with mode := long_to_int (Stream_parseInt l.rx).1,
                      rx := (Stream_parseInt l.rx).2 }) ∧
      (∀ rx, ∃ consumed, rx = consumed ++ (Stream_parseInt rx).2) :=
  ⟨by decide, loop_busy_keeps_input Stream_parseInt
    (Board.mk 1 "9\n".toList (fun _ _ => 0) []) (by decide)⟩

/-- C10: for `samples ≥ 1` values in `[0, 65535]` every store `serial_write` makes into its
buffer of `samples * 6` cells goes to an index below `samples * 6`. After each number `k` of
loop iterations the running index is at most `samples * 6` and every store logged so far
(digits, the NUL of `sprintf`, the comma) went below it; at the `println` the log holds the
digits and commas, one `sprintf` NUL per value and the final NUL, all below `samples * 6`,
the last one being the NUL stored at the final index. -/
theorem serial_write_stores_in_bounds (sensor_values : List Nat)
    (hN : 1 ≤ sensor_values.length) (hr : ∀ v ∈ sensor_values, v ≤ 65535) :
    (∀ k, k ≤ sensor_values.length →
      ∃ f, serial_write_for sensor_values k 0
          { buffer := Buffer.alloc (sensor_values.length * 6), index := 0 } = some f ∧
        f.index ≤ sensor_values.length * 6 ∧
        ∀ p ∈ f.buffer.stored, p.1 < f.index ∧ p.1 < sensor_values.length * 6) ∧
    ∃ f, serial_write_frame sensor_values sensor_values.length = some f ∧
      f.buffer.size = sensor_values.length * 6 ∧
      f.index < sensor_values.length * 6 ∧
      (∀ p ∈ f.buffer.stored, p.1 < sensor_values.length * 6) ∧
      f.buffer.stored.getLast? = some (f.index, NUL) ∧
      f.buffer.stored.length = (laidDown sensor_values).length + sensor_values.length + 1 := by
  constructor
  · intro k hk
    refine ⟨_, serial_write_for_eq sensor_values k 0 _ (by omega), ?_⟩
    rw [List.drop_zero]
    have hH := foldl_holds (sensor_values.take k) _ [] (holds_alloc (sensor_values.length * 6))
    have hS := foldl_storesBelow (sensor_values.take k) _
      (storesBelow_alloc (sensor_values.length * 6))
    have hL := laidDown_take_length sensor_values hr k hk
    rw [List.nil_append] at hH
    have hidx := hH.1
    refine ⟨by omega, fun p hp => ?_⟩
    have := hS p hp
    exact ⟨this, by omega⟩
  · have hne : sensor_values ≠ [] := List.ne_nil_of_length_pos hN
    have hH := foldl_holds sensor_values _ [] (holds_alloc (sensor_values.length * 6))
    have hS := foldl_storesBelow sensor_values _
      (storesBelow_alloc (sensor_values.length * 6))
    have hsz : (sensor_values.foldl serial_write_body
        { buffer := Buffer.alloc (sensor_values.length * 6), index := 0 }).buffer.size =
        sensor_values.length * 6 := foldl_size sensor_values _
    have hcount := foldl_stored_length sensor_values
      { buffer := Buffer.alloc (sensor_values.length * 6), index := 0 }
    have hL := laidDown_length sensor_values hr
    have hpos : 1 ≤ (laidDown sensor_values).length := by
      rw [laidDown_eq sensor_values hne]
      simp
    rw [List.nil_append] at hH
    refine ⟨_, serial_write_frame_eq sensor_values, ?_⟩
    generalize sensor_values.foldl serial_write_body
      { buffer := Buffer.alloc (sensor_values.length * 6), index := 0 } = F at hH hS hsz hcount ⊢
    have hidx := hH.1
    have hnz : ¬ F.index = 0 := by omega
    simp only [serial_write_trim, if_neg hnz, Buffer.store]
    refine ⟨hsz, by omega, ?_, by simp, ?_⟩
    · intro p hp
      simp only [List.mem_append, List.mem_singleton] at hp
      rcases hp with hp | hp
      · have := hS p hp
        omega
      · subst hp
        simp only
        omega
    · simp only [List.length_append, List.length_singleton, hcount]
      simp [Buffer.alloc]

theorem serial_write_stores_in_bounds_witness :
    1 ≤ ([65535, 7] : List Nat).length ∧ (∀ v ∈ ([65535, 7] : List Nat), v ≤ 65535) ∧
    (serial_write_frame [65535, 7] 2).map (fun f => f.buffer.stored.map Prod.fst) =
      some [0, 1, 2, 3, 4, 5, 5, 6, 7, 7, 7] ∧
    ((∀ k, k ≤ ([65535, 7] : List Nat).length →
      ∃ f, serial_write_for [65535, 7] k 0
          { buffer := Buffer.alloc (([65535, 7] : List Nat).length * 6), index := 0 } = some f ∧
        f.index ≤ ([65535, 7] : List Nat).length * 6 ∧
        ∀ p ∈ f.buffer.stored, p.1 < f.index ∧ p.1 < ([65535, 7] : List Nat).length * 6) ∧
    ∃ f, serial_write_frame [65535, 7] ([65535, 7] : List Nat).length = some f ∧
      f.buffer.size = ([65535, 7] : List Nat).length * 6 ∧
      f.index < ([65535, 7] : List Nat).length * 6 ∧
      (∀ p ∈ f.buffer.stored, p.1 < ([65535, 7] : List Nat).length * 6) ∧
      f.buffer.stored.getLast? = some (f.index, NUL) ∧
      f.buffer.stored.length =
        (laidDown [65535, 7]).length + ([65535, 7] : List Nat).length + 1) :=
  ⟨by decide, by decide, by decide,
    serial_write_stores_in_bounds [65535, 7] (by decide) (by decide)⟩

/-! ## Start-up, decoding, the idle step -/

theorem waitSerial_some (serialUp : Nat → Bool) (fuel : Nat) : ∀ (t k : Nat),
    t ≤ k → k < t + fuel → serialUp k = true → ∃ polls, waitSerial serialUp fuel t = some polls := by
  induction fuel with
  | zero => intro t k h1 h2 _; omega
  | succ fuel ih =>
    intro t k h1 h2 hk
    by_cases ht : serialUp t = true
    · exact ⟨t + 1, by simp [waitSerial, ht]⟩
    · have hne : t ≠ k := fun e => ht (e ▸ hk)
      obtain ⟨polls, hp⟩ := ih (t + 1) k (by omega) (by omega) hk
      exact ⟨polls, by simp [waitSerial, ht, hp]⟩

theorem setup_trace (b : Board) :
    (setup b).trace = b.trace ++
      [Event.pinMode M1_DIR_PIN true, Event.pinMode M1_STEP_PIN true,
        Event.pinMode M1_EN_PIN true, Event.pinMode HALL_PIN false, Event.pinMode RF_PIN false,
        Event.digitalWrite M1_EN_PIN false, Event.digitalWrite M1_DIR_PIN false,
        Event.setTimeout 1000, Event.begin 115200, Event.println readyNotice,
        Event.call Routine.set_motor_to_origin] := by
  simp [setup, set_motor_to_origin, Board.emit]

theorem setup_mode (b : Board) : (setup b).mode = b.mode := by
  simp [setup, set_motor_to_origin, Board.emit]

theorem setup_rx (b : Board) : (setup b).rx = b.rx := by
  simp [setup, set_motor_to_origin, Board.emit]

theorem setup_lines (b : Board) :
    linesOf (setup b).trace = linesOf b.trace ++ [readyNotice] := by
  rw [setup_trace, linesOf_append]
  simp [linesOf]

theorem setup_calls (b : Board) :
    callsOf (setup b).trace = callsOf b.trace ++ [Routine.set_motor_to_origin] := by
  rw [setup_trace, callsOf_append]
  simp [callsOf]

theorem loop_trace_later (parseInt : List Char → Int × List Char) (b b' : Board)
    (h : loop parseInt b = some b') :
    ∃ later, b'.trace = b.trace ++ later ∧ Routine.set_motor_to_origin ∉ callsOf later := by
  by_cases h0 : b.mode = 0
  · obtain ⟨c, hc, ht⟩ := loop_listen_trace parseInt b h0
    rw [hc] at h
    cases h
    exact ⟨[], by simp [ht], by simp [callsOf]⟩
  · by_cases h1 : b.mode = 1
    · rw [loop_acquire_eq parseInt b h1] at h
      cases h
      exact ⟨_, rfl, by simp [callsOf]⟩
    · rw [loop_error_eq parseInt b h0 h1] at h
      cases h
      exact ⟨_, rfl, by simp [callsOf]⟩

theorem runLoop_trace_later (parseInt : List Char → Int × List Char) (n : Nat) :
    ∀ (b b' : Board), runLoop parseInt n b = some b' →
      ∃ later, b'.trace = b.trace ++ later ∧ Routine.set_motor_to_origin ∉ callsOf later := by
  induction n with
  | zero =>
    intro b b' h
    simp only [runLoop, Option.some.injEq] at h
    subst h
    exact ⟨[], by simp, by simp [callsOf]⟩
  | succ n ih =>
    intro b b' h
    rw [runLoop] at h
    cases hl : loop parseInt b with
    | none => rw [hl] at h; simp at h
    | some c =>
      rw [hl, Option.some_bind] at h
      obtain ⟨l1, e1, n1⟩ := loop_trace_later parseInt b c hl
      obtain ⟨l2, e2, n2⟩ := ih c b' h
      refine ⟨l1 ++ l2, by rw [e2, e1, List.append_assoc], ?_⟩
      rw [callsOf_append, List.mem_append]
      exact fun hm => hm.elim n1 n2

theorem decodeLine_joinFields (vs : List Nat) (hne : vs ≠ []) :
    decodeLine (joinFields (vs.map (Nat.toDigits 10))) = vs := by
  have hsplit : (joinFields (vs.map (Nat.toDigits 10))).splitOn ',' =
      vs.map (Nat.toDigits 10) := by
    apply List.splitOn_intercalate
    · intro l hl hc
      obtain ⟨v, _, rfl⟩ := List.mem_map.mp hl
      exact isDigit_ne_comma _ (toDigits_isDigit v _ hc) rfl
    · simpa using hne
  rw [decodeLine, hsplit, List.map_map]
  have : (decimalValue ∘ Nat.toDigits 10) = id := by
    funext v
    exact decimalValue_toDigits v
  rw [this, List.map_id]

/-- C11: `setup` makes eleven calls in a fixed order, the last two being the `println` of
the ready line and the entry into `set_motor_to_origin`: it transmits exactly one line, the
ready confirmation, enters the homing routine exactly once, after that line, and takes no
step of the state machine (`mode` and the pending input are untouched). It returns as soon
as the port has come up. In every run, whatever steps of `loop` follow, they only add to
this trace and never enter the homing routine again. -/
theorem setup_ready_then_homing (b : Board) :
    (setup b).trace = b.trace ++
      [Event.pinMode M1_DIR_PIN true, Event.pinMode M1_STEP_PIN true,
        Event.pinMode M1_EN_PIN true, Event.pinMode HALL_PIN false, Event.pinMode RF_PIN false,
        Event.digitalWrite M1_EN_PIN false, Event.digitalWrite M1_DIR_PIN false,
        Event.setTimeout 1000, Event.begin 115200, Event.println readyNotice,
        Event.call Routine.set_motor_to_origin] ∧
    readyNotice = "Serial port initialized successfully!".toList ∧
    linesOf (setup b).trace = linesOf b.trace ++ [readyNotice] ∧
    callsOf (setup b).trace = callsOf b.trace ++ [Routine.set_motor_to_origin] ∧
    (setup b).mode = b.mode ∧ (setup b).rx = b.rx ∧
    (∀ (serialUp : Nat → Bool) (fuel k : Nat), k < fuel → serialUp k = true →
      setup_polling serialUp fuel b = some (setup b)) ∧
    (∀ (parseInt : List Char → Int × List Char) (rx : List Char) (analogIn : Nat → Pin → Nat)
        (n : Nat) (b' : Board),
      runLoop parseInt n (setup (Board.powerUp rx analogIn)) = some b' →
        ∃ later, b'.trace = (setup (Board.powerUp rx analogIn)).trace ++ later ∧
          Routine.set_motor_to_origin ∉ callsOf later ∧
          (callsOf b'.trace).count Routine.set_motor_to_origin = 1 ∧
          (linesOf b'.trace).head? = some readyNotice) := by
  refine ⟨setup_trace b, rfl, setup_lines b, setup_calls b, setup_mode b, setup_rx b, ?_, ?_⟩
  · intro serialUp fuel k hk hup
    obtain ⟨polls, hp⟩ := waitSerial_some serialUp fuel 0 k (by omega) (by omega) hup
    simp [setup_polling, hp]
  · intro parseInt rx analogIn n b' hrun
    obtain ⟨later, e, hno⟩ := runLoop_trace_later parseInt n _ b' hrun
    refine ⟨later, e, hno, ?_, ?_⟩
    · rw [e, callsOf_append, List.count_append, List.count_eq_zero.mpr hno, setup_calls]
      simp [Board.powerUp, callsOf]
    · rw [e, linesOf_append, setup_lines]
      simp [Board.powerUp, linesOf]

theorem setup_ready_then_homing_witness :
    (runLoop Stream_parseInt 5 (setup (Board.powerUp "1\n9\n".toList (fun _ _ => 0)))).map
        (fun b => (linesOf b.trace, callsOf b.trace)) =
      some ([readyNotice, "0,0,0,0,0,0,0,0,0,0".toList, unknownNotice],
        [Routine.set_motor_to_origin, Routine.perform_sampling, Routine.serial_write]) ∧
    linesOf (setup (Board.powerUp [] (fun _ _ => 0))).trace =
      linesOf (Board.powerUp [] (fun _ _ => 0)).trace ++ [readyNotice] ∧
    callsOf (setup (Board.powerUp [] (fun _ _ => 0))).trace =
      callsOf (Board.powerUp [] (fun _ _ => 0)).trace ++ [Routine.set_motor_to_origin] :=
  ⟨by decide,
    (setup_ready_then_homing (Board.powerUp [] (fun _ _ => 0))).2.2.1,
    (setup_ready_then_homing (Board.powerUp [] (fun _ _ => 0))).2.2.2.1⟩

/-- C12: decoding undoes `serial_write`. For a non-empty array of 16-bit values the printed
line, split at its commas with every field read as a decimal number, is the array again,
same length and same order; so no other non-empty array of 16-bit values gives the same
line. -/
theorem decodeLine_serial_write (sensor_values : List Nat)
    (hne : sensor_values ≠ []) (h16 : ∀ v ∈ sensor_values, v ≤ 65535) :
    ∃ line, serial_write_line sensor_values sensor_values.length = some line ∧
      decodeLine line = sensor_values ∧
      (decodeLine line).length = sensor_values.length ∧
      ∀ other : List Nat, other ≠ [] → (∀ v ∈ other, v ≤ 65535) →
        serial_write_line other other.length = some line → other = sensor_values := by
  refine ⟨_, serial_write_line_eq sensor_values hne h16,
    decodeLine_joinFields sensor_values hne, ?_, ?_⟩
  · rw [decodeLine_joinFields sensor_values hne]
  · intro other hone ho hline
    rw [serial_write_line_eq other hone ho, Option.some.injEq] at hline
    have h1 := decodeLine_joinFields other hone
    rw [hline, decodeLine_joinFields sensor_values hne] at h1
    exact h1.symm

theorem decodeLine_serial_write_witness :
    ([512, 0, 65535] : List Nat) ≠ [] ∧ (∀ v ∈ ([512, 0, 65535] : List Nat), v ≤ 65535) ∧
    decodeLine "512,0,65535".toList = [512, 0, 65535] ∧
    ∃ line, serial_write_line [512, 0, 65535] ([512, 0, 65535] : List Nat).length = some line ∧
      decodeLine line = [512, 0, 65535] ∧
      (decodeLine line).length = ([512, 0, 65535] : List Nat).length ∧
      ∀ other : List Nat, other ≠ [] → (∀ v ∈ other, v ≤ 65535) →
        serial_write_line other other.length = some line → other = [512, 0, 65535] :=
  ⟨by decide, by decide, by decide,
    decodeLine_serial_write [512, 0, 65535] (by decide) (by decide)⟩

/-- C13: in LISTEN (mode 0) one step of `loop` returns and makes no call at all, whether or
not input is available: nothing is transmitted, no routine is entered (so no sampling), no
motor pin is written. With no input available the step changes nothing: the board after the
step is the board before it, so the state is still LISTEN and no input was consumed. -/
theorem loop_listen_step (parseInt : List Char → Int × List Char) (b : Board)
    (h : b.mode = 0) :
    ∃ b', loop parseInt b = some b' ∧
      b'.trace = b.trace ∧
      linesOf b'.trace = linesOf b.trace ∧
      callsOf b'.trace = callsOf b.trace ∧
      motionOf b'.trace = motionOf b.trace ∧
      b'.analogIn = b.analogIn ∧
      (b.rx.length = 0 → b' = b ∧ stateOf b'.mode = State.LISTEN ∧ b'.rx = b.rx) := by
  by_cases ha : 0 < b.rx.length
  · refine ⟨_, loop_listen_eq parseInt b h ha, rfl, rfl, rfl, rfl, rfl, ?_⟩
    intro h0
    omega
  · have hstep : loop parseInt b = some b := by simp [loop, h, ha]
    refine ⟨b, hstep, rfl, rfl, rfl, rfl, rfl, ?_⟩
    intro _
    exact ⟨rfl, by rw [h]; rfl, rfl⟩

theorem loop_listen_step_witness :
    (Board.powerUp [] (fun _ _ => 0)).mode = 0 ∧
    (loop Stream_parseInt (Board.powerUp "7\n".toList (fun _ _ => 0))).map
      (fun b => (b.mode, b.rx, b.trace)) = some (7, "\n".toList, []) ∧
    ∃ b', loop Stream_parseInt (Board.powerUp [] (fun _ _ => 0)) = some b' ∧
      b'.trace = (Board.powerUp [] (fun _ _ => 0)).trace ∧
      linesOf b'.trace = linesOf (Board.powerUp [] (fun _ _ => 0)).trace ∧
      callsOf b'.trace = callsOf (Board.powerUp [] (fun _ _ => 0)).trace ∧
      motionOf b'.trace = motionOf (Board.powerUp [] (fun _ _ => 0)).trace ∧
      b'.analogIn = (Board.powerUp [] (fun _ _ => 0)).analogIn ∧
      ((Board.powerUp [] (fun _ _ => 0)).rx.length = 0 →
        b' = Board.powerUp [] (fun _ _ => 0) ∧ stateOf b'.mode = State.LISTEN ∧
          b'.rx = (Board.powerUp [] (fun _ _ => 0)).rx) :=
  ⟨rfl, by decide, loop_listen_step Stream_parseInt (Board.powerUp [] (fun _ _ => 0)) rfl⟩

end Scanner
